import Mathlib

/-!
Verification of the content ingestion and safety pipeline of the
children's news application (src/config.py, src/extractors.py,
src/processors.py, src/data_pipeline.py).

The Python text processing works on ASCII news text; the embedding models
the character classes of the regular expressions used by the code
(`\s`, `\w`, the punctuation allow-list) and Python's `str.lower` /
`str.upper` on the ASCII range, over Lean's `Char`/`String`.
Dictionaries holding article records are modelled by a structure whose
fields are `Option`-valued: `none` models an absent key, and every field
access in the code that uses `dict.get(key, default)` is modelled by
`Option.getD`.
-/

namespace ChildNews

/-! ## Character model (the ASCII fragment of Python's text operations) -/

/-- Python `str.lower` on one character, ASCII range (A-Z ↦ a-z). -/
def pyLower (c : Char) : Char :=
  if h : 65 ≤ c.toNat ∧ c.toNat ≤ 90 then
    Char.ofNatAux (c.toNat + 32) (Or.inl (by omega))
  else c

/-- Python `str.upper` on one character, ASCII range (a-z ↦ A-Z). -/
def pyUpper (c : Char) : Char :=
  if h : 97 ≤ c.toNat ∧ c.toNat ≤ 122 then
    Char.ofNatAux (c.toNat - 32) (Or.inl (by omega))
  else c

/-- The regex class `\s` (ASCII fragment): space, tab, newline, carriage
return, vertical tab, form feed. -/
def isSpaceChar (c : Char) : Bool :=
  c = ' ' || c = '\t' || c = '\n' || c = '\x0d' || c = '\x0b' || c = '\x0c'

/-- The regex class `\w` (ASCII fragment): letters, digits, underscore. -/
def isWordChar (c : Char) : Bool :=
  (97 ≤ c.toNat && c.toNat ≤ 122) || (65 ≤ c.toNat && c.toNat ≤ 90) ||
  (48 ≤ c.toNat && c.toNat ≤ 57) || c = '_'

/-- The characters of the class `[.,!?]` used by `_clean_text`'s collapse of
repeated terminal punctuation. -/
def isTermPunct (c : Char) : Bool :=
  c = '.' || c = ',' || c = '!' || c = '?'

/-- The allow-list of `_clean_text`'s character strip,
regex `[^\w\s.,!?;:'"-]` complemented: word characters, whitespace and the
listed punctuation survive. -/
def isAllowedChar (c : Char) : Bool :=
  isWordChar c || isSpaceChar c ||
  c = '.' || c = ',' || c = '!' || c = '?' || c = ';' || c = ':' ||
  c = '\x27' || c = '"' || c = '-'

/-- Python `str.lower` on a string (ASCII model). -/
def pyLowerStr (s : String) : String := String.mk (s.toList.map pyLower)

/-! ## The text normalisation `DataCleaner._clean_text` (processors.py 84-97) -/

/-- `re.sub(r'\s+', ' ', text)`: every maximal run of whitespace becomes one
space. -/
def collapseWS : List Char → List Char
  | [] => []
  | [c] => if isSpaceChar c then [' '] else [c]
  | c :: d :: rest =>
    if isSpaceChar c && isSpaceChar d then collapseWS (d :: rest)
    else if isSpaceChar c then ' ' :: collapseWS (d :: rest)
    else c :: collapseWS (d :: rest)

/-- `re.sub(r'([.,!?]){2,}', r'\1', text)`: every maximal run of at least two
terminal-punctuation characters is replaced by the last character of the
run (the backreference captures the final repetition). -/
def collapsePunct : List Char → List Char
  | [] => []
  | [c] => [c]
  | c :: d :: rest =>
    if isTermPunct c && isTermPunct d then collapsePunct (d :: rest)
    else c :: collapsePunct (d :: rest)

/-- Python `str.strip()` of trailing whitespace. -/
def dropTrailingWS (l : List Char) : List Char :=
  (l.reverse.dropWhile isSpaceChar).reverse

/-- Python `str.strip()`: whitespace removed from both ends. -/
def stripWS (l : List Char) : List Char :=
  dropTrailingWS (l.dropWhile isSpaceChar)

/-- `text[0].upper() + text[1:]` guarded by `if text:`. -/
def capFirst : List Char → List Char
  | [] => []
  | c :: rest => pyUpper c :: rest

/-- `DataCleaner._clean_text` on the character list: collapse whitespace,
strip disallowed characters, collapse repeated terminal punctuation, strip,
capitalise the first letter.  The code's `if not text: return ""` guard is
absorbed: every stage maps the empty list to the empty list. -/
def cleanChars (l : List Char) : List Char :=
  capFirst (stripWS (collapsePunct (List.filter isAllowedChar (collapseWS l))))

/-- `DataCleaner._clean_text` (processors.py 84-97). -/
def clean_text (s : String) : String := String.mk (cleanChars s.toList)

/-! ## Python `str.split()` (whitespace split, empty pieces dropped) -/

/-- Accumulator-based whitespace split; `acc` holds the current word
reversed. -/
def pySplitAux : List Char → List Char → List (List Char)
  | [], acc => if acc.isEmpty then [] else [acc.reverse]
  | c :: cs, acc =>
    if isSpaceChar c then
      if acc.isEmpty then pySplitAux cs [] else acc.reverse :: pySplitAux cs []
    else pySplitAux cs (c :: acc)

/-- Python `s.split()` with no separator: maximal non-whitespace runs. -/
def pySplit (l : List Char) : List (List Char) := pySplitAux l []

/-- Python `s.split()` on a string, as strings. -/
def pySplitStr (s : String) : List String := (pySplit s.toList).map String.mk

/-- `re.split(r'[.!?]+', s)`: split on maximal runs of terminal punctuation,
keeping empty pieces (used by the sentence count of
`_truncate_for_age_group`).  The flag records whether the previous character
belonged to a separator run. -/
def sentSplitAux : List Char → List Char → Bool → List (List Char)
  | [], acc, _ => [acc.reverse]
  | c :: cs, acc, afterPunct =>
    if isTermPunct c then
      if afterPunct then sentSplitAux cs acc true
      else acc.reverse :: sentSplitAux cs [] true
    else sentSplitAux cs (c :: acc) false

def sentSplit (l : List Char) : List (List Char) := sentSplitAux l [] false

/-- Python `' '.join(words)`. -/
def joinSpace : List (List Char) → List Char
  | [] => []
  | [w] => w
  | w :: ws => w ++ ' ' :: joinSpace ws

/-! ## The article record

An extracted/cleaned article is a Python dict; the structure's
`Option`-valued fields model key presence, and `Option.getD` models
`dict.get(key, default)`. -/

structure Article where
  source : Option String
  title : Option String
  description : Option String
  url : Option String
  published_date : Option String
  category : Option String
  extraction_method : Option String
  raw_content : Option String
  extracted_at : Option String
  cleaned_at : Option String
  word_count : Option Nat
  is_cleaned : Option Bool
deriving DecidableEq

/-- An article dict holding only the three text fields (the shape exercised
by the cleaning-stage claims). -/
def mkTextArticle (t d r : Option String) : Article :=
  ⟨none, t, d, none, none, none, none, r, none, none, none, none⟩

/-- The same article with an absent text field replaced by the present
empty string (the value `dict.get(field, '')` yields either way). -/
def defaultTextFields (a : Article) : Article :=
  { a with title := some (a.title.getD ""),
           description := some (a.description.getD ""),
           raw_content := some (a.raw_content.getD "") }

/-! ## DataCleaner (processors.py 34-140) -/

/-- `SENSITIVE_KEYWORDS` (config.py 103-109). -/
def SENSITIVE_KEYWORDS : List String :=
  ["murder", "killed", "death", "violence", "terrorist", "bomb",
   "rape", "assault", "abuse", "suicide", "war", "shooting",
   "massacre", "torture", "kidnap", "attack", "wounded", "injured",
   "blood", "weapon", "explosion", "riot", "dead", "stabbed", "shot dead",
   "corpse", "brutal", "slaughter", "execution", "hanging"]

/-- `DataCleaner.__init__`: the keyword set lower-cased once at start-up. -/
def sensitive_keywords : List String := SENSITIVE_KEYWORDS.map pyLowerStr

/-- `DataCleaner._clean_article` (processors.py 71-82): normalise the three
text fields on a copy; if the body is empty after normalisation and the
description is not, the description becomes the body. -/
def clean_article (a : Article) : Article :=
  let t := clean_text (a.title.getD "")
  let d := clean_text (a.description.getD "")
  let r := clean_text (a.raw_content.getD "")
  let r' := if r = "" && d ≠ "" then d else r
  { a with title := some t, description := some d, raw_content := some r' }

/-- The deduplication key of `_remove_duplicates` (processors.py 105-106):
`re.sub(r'[^\w\s]', '', title.lower().strip())`. -/
def normTitleKey (title : String) : String :=
  String.mk ((stripWS (pyLowerStr title).toList).filter
    (fun c => isWordChar c || isSpaceChar c))

def articleKey (a : Article) : String := normTitleKey (a.title.getD "")

/-- The loop of `_remove_duplicates`; `seen` models the `seen_titles` set. -/
def removeDupsAux (seen : List String) : List Article → List Article
  | [] => []
  | a :: rest =>
    let k := articleKey a
    if k ≠ "" ∧ k ∉ seen then a :: removeDupsAux (k :: seen) rest
    else removeDupsAux seen rest

/-- `DataCleaner._remove_duplicates` (processors.py 99-112). -/
def remove_duplicates (arts : List Article) : List Article :=
  removeDupsAux [] arts

/-- The `full_text` of `_filter_sensitive` (processors.py 119-123):
lower-cased `title + ' ' + description + ' ' + raw_content`. -/
def full_text_lower (a : Article) : String :=
  pyLowerStr (a.title.getD "" ++ " " ++ a.description.getD "" ++ " " ++
    a.raw_content.getD "")

/-- `is_sensitive` of `_filter_sensitive` (processors.py 126): some keyword
is a substring of the lower-cased full text. -/
def is_sensitive (a : Article) : Bool :=
  sensitive_keywords.any (fun kw => decide (kw.toList <:+: (full_text_lower a).toList))

/-- `DataCleaner._filter_sensitive` (processors.py 114-133). -/
def filter_sensitive (arts : List Article) : List Article :=
  arts.filter (fun a => !is_sensitive a)

/-- `DataCleaner._add_metadata` (processors.py 135-140); `now` stands for
`datetime.now().isoformat()`. -/
def add_metadata (now : String) (a : Article) : Article :=
  { a with cleaned_at := some now,
           word_count := some (pySplitStr (a.raw_content.getD "")).length,
           is_cleaned := some true }

/-- `DataCleaner.clean_all` (processors.py 40-69): normalise, deduplicate,
filter sensitive content, stamp metadata. -/
def clean_all (now : String) (articles : List Article) : List Article :=
  let cleaned := articles.map clean_article
  let deduplicated := remove_duplicates cleaned
  let filtered := filter_sensitive deduplicated
  filtered.map (add_metadata now)

/-! ## GeminiHybridProcessor._truncate_for_age_group (processors.py 319-351) -/

/-- One entry of `AGE_GROUPS` (config.py 79-98). -/
structure AgeGroup where
  name : String
  max_words : Nat
  max_sentences : Nat
  complexity : String
deriving DecidableEq

def AGE_GROUPS : List AgeGroup :=
  [⟨"6-8 years", 50, 3, "very_simple"⟩,
   ⟨"9-11 years", 100, 5, "simple"⟩,
   ⟨"12-14 years", 150, 8, "moderate"⟩]

/-- The per-age-group record `_truncate_for_age_group` returns (the constant
`model_used` field is omitted). -/
structure TruncResult where
  text : String
  word_count : Nat
  sentence_count : Nat
  complexity_level : String
  age_group : String
deriving DecidableEq

/-- The stats block at the end of `_truncate_for_age_group` (340-351). -/
def truncStats (finalText : String) (g : AgeGroup) : TruncResult :=
  ⟨finalText,
   (pySplitStr finalText).length,
   ((sentSplit finalText.toList).map (fun p => stripWS p)).countP (fun p => !p.isEmpty),
   g.complexity, g.name⟩

/-- `GeminiHybridProcessor._truncate_for_age_group` (processors.py 319-351).
`none` models the `IndexError` the code raises at `final_text[-1]` when the
truncated join is empty (only possible for `max_words = 0`). -/
def truncate_for_age_group (simplifiedText : String) (g : AgeGroup) :
    Option TruncResult :=
  let words := pySplit simplifiedText.toList
  if words.length ≤ g.max_words then some (truncStats simplifiedText g)
  else
    let truncated := joinSpace (words.take g.max_words)
    match truncated.getLast? with
    | none => none
    | some lastChar =>
      let finalText :=
        if lastChar = '.' ∨ lastChar = '!' ∨ lastChar = '?' then
          String.mk truncated
        else String.mk truncated ++ "..."
      some (truncStats finalText g)

/-! ## Extraction strategies (extractors.py)

The network and HTML-parsing layers are effectful; the embedding models the
pure record construction each strategy performs on the text it extracted.
-/

/-- Python slicing `s[:n]`. -/
def pyTake (s : String) (n : Nat) : String := String.mk (s.toList.take n)

/-- `RSSExtractor._fetch_full_article` (extractors.py 76-108) on the
paragraph text it extracted: `found = none` models every failure path (no
url, request error, no recognised content container), which returns `""`;
a found body is returned as `content[:2000]`. -/
def fetch_full_article (found : Option String) : String :=
  match found with
  | none => ""
  | some content => pyTake content 2000

/-- The `raw_content` field built by `RSSExtractor.extract` (extractors.py
61): the fetched full text, or the feed summary when the fetch yielded
nothing. -/
def rssRawContent (summary : String) (found : Option String) : String :=
  let full := fetch_full_article found
  if full ≠ "" then full else summary

/-- One item of `WebScraper._scrape_ndtv` (extractors.py 320-347): the link
text is the title, the first paragraph text the description; `raw_content`
is the description, unmodified.  `none` models the `continue` on a short
title. -/
def ndtvParseItem (title url description : String)
    (src cat now : String) : Option Article :=
  let url' := if url ≠ "" ∧ ¬url.startsWith "http"
              then "https://www.ndtv.com" ++ url else url
  if title ≠ "" ∧ title.length > 10 then
    some ⟨some src, some title, some description, some url', some now,
          some cat, some "scraper", some description, some now,
          none, none, none⟩
  else none

/-- Python `line.startswith(prefixStr)`. -/
def pyStarts (l : List Char) (p : List Char) : Bool := decide (p <+: l)

/-- Python `line.strip('# ')`: the characters `#` and space removed from
both ends. -/
def stripHashSpace (l : List Char) : List Char :=
  ((l.dropWhile (fun c => c = '#' || c = ' ')).reverse.dropWhile
    (fun c => c = '#' || c = ' ')).reverse

/-- `markdown.split('\n')`, empty pieces kept. -/
def splitNL : List Char → List Char → List (List Char)
  | [], acc => [acc.reverse]
  | c :: cs, acc =>
    if c = '\n' then acc.reverse :: splitNL cs [] else splitNL cs (c :: acc)

/-- `markdown.split('\n\n')`: split on the two-character separator,
left-to-right, non-overlapping, empty pieces kept. -/
def splitNN : List Char → List Char → List (List Char)
  | [], acc => [acc.reverse]
  | '\n' :: '\n' :: cs, acc => acc.reverse :: splitNN cs []
  | c :: cs, acc => splitNN cs (c :: acc)

/-- The `clean_content` of `FirecrawlExtractor._parse_article` (extractors.py
597-603): per line, keep lines whose strip is non-empty and that do not
start with `![` or `[`, strip `'# '` from each, join with spaces. -/
def firecrawlCleanContent (markdown : String) : String :=
  let lines := splitNL markdown.toList []
  let kept := lines.filter (fun l =>
    !(stripWS l).isEmpty && !pyStarts l ['!', '['] && !pyStarts l ['['])
  String.mk (List.intercalate [' '] (kept.map stripHashSpace))

/-- The title of `FirecrawlExtractor._parse_article` (extractors.py
567-575): the metadata title, else the first line of the markdown whose
strip is non-empty, does not start with `#` and strips to more than 15
characters. -/
def firecrawlTitle (markdown metaTitle : String) : String :=
  if metaTitle = "" ∧ markdown ≠ "" then
    match (splitNL markdown.toList []).find? (fun l =>
      !(stripWS l).isEmpty && !pyStarts l ['#'] && (stripWS l).length > 15) with
    | some l => String.mk (stripWS (stripHashSpace l))
    | none => ""
  else metaTitle

/-- The description of `_parse_article` (extractors.py 577-582): the
metadata description, else the first stripped paragraph, cut to 200. -/
def firecrawlDescription (markdown metaDesc : String) : String :=
  if metaDesc = "" ∧ markdown ≠ "" then
    match ((splitNN markdown.toList []).filter (fun p =>
      !(stripWS p).isEmpty && !pyStarts p ['#'])) with
    | p :: _ => pyTake (String.mk (stripWS p)) 200
    | [] => ""
  else metaDesc

/-- The `raw_content` of `_parse_article` (extractors.py 605-606): the
flattened markdown cut to the 2000-character budget. -/
def firecrawlRawContent (markdown : String) : String :=
  if (firecrawlCleanContent markdown).length > 2000 then
    pyTake (firecrawlCleanContent markdown) 2000
  else firecrawlCleanContent markdown

/-- `FirecrawlExtractor._parse_article` (extractors.py 558-625).
`metaTitle`/`metaDesc` model `getattr(metadata, field, '')` (empty when the
metadata object is missing); `pubMeta` the first available date field.
`none` models the `return None` on a missing title or short content. -/
def firecrawl_parse_article (markdown metaTitle metaDesc : String)
    (pubMeta : Option String) (url src cat now : String) : Option Article :=
  if firecrawlTitle markdown metaTitle = "" ∨
      (firecrawlRawContent markdown).length < 100 then none
  else
    some ⟨some src, some (firecrawlTitle markdown metaTitle),
          some (firecrawlDescription markdown metaDesc), some url,
          some (pubMeta.getD now), some cat, some "firecrawl",
          some (firecrawlRawContent markdown), some now, none, none, none⟩

/-! ## The extraction dispatcher `DataExtractor.extract_all`
(extractors.py 634-671) -/

/-- One configured source as the dispatcher sees it: its `type` field, and
the outcome of constructing its strategy and calling `extract()` —
`Except.error` models an exception raised anywhere inside the per-source
`try` block. -/
structure SourceRun where
  type : String
  result : Except String (List Article)

/-- Whether the dispatcher recognises the source's `type` (646-654);
anything else is logged and skipped. -/
def knownType (t : String) : Bool :=
  t = "rss" || t = "scraper" || t = "firecrawl"

/-- `DataExtractor.extract_all` (extractors.py 634-671): per source, route by
type, extend the accumulated list; an exception is caught at the per-source
boundary and the loop continues. -/
def extract_all : List SourceRun → List Article
  | [] => []
  | r :: rest =>
    (if knownType r.type then
      match r.result with
      | .ok arts => arts
      | .error _ => []
     else []) ++ extract_all rest

/-! ## The Firecrawl per-item rate-limit retry
(`FirecrawlExtractor.extract`, extractors.py 482-519) -/

/-- The outcome of one `app.scrape` + `_parse_article` on one link:
`ok none` models a scrape whose parse returned `None`, `err` a raised
exception with its message. -/
inductive FetchOutcome where
  | ok (a : Option Article)
  | err (msg : String)
deriving DecidableEq

/-- One candidate link: the outcome of the first attempt, and of the retry
attempt (consulted only after a rate-limit failure). -/
structure LinkRun where
  first : FetchOutcome
  retry : FetchOutcome

/-- `"Rate Limit" in error_msg` (extractors.py 505). -/
def rateLimited (msg : String) : Bool :=
  decide (("Rate Limit" : String).toList <:+: msg.toList)

/-- The articles one successful attempt contributes. -/
def attemptArticles : FetchOutcome → List Article
  | .ok (some a) => [a]
  | .ok none => []
  | .err _ => []

/-- The body of the per-link loop (extractors.py 482-519): a successful
attempt contributes its parse result; a rate-limited failure is retried
exactly once (the retry's own failure is swallowed); any other failure
skips the item. -/
def processLink (l : LinkRun) : List Article :=
  match l.first with
  | .ok a? => attemptArticles (.ok a?)
  | .err m => if rateLimited m then attemptArticles l.retry else []

/-- The whole per-link loop: contributions concatenated in link order. -/
def firecrawlLoop (links : List LinkRun) : List Article :=
  (links.map processLink).flatten

/-! ## NewsPipeline.run_complete_pipeline (data_pipeline.py 43-120) -/

/-- What one run reports: the returned boolean, and whether the simplifier
(step 3) and the storage stage (step 4) were reached. -/
structure RunResult where
  success : Bool
  simplifierInvoked : Bool
  storageInvoked : Bool
deriving DecidableEq

/-- `NewsPipeline.run_complete_pipeline` (data_pipeline.py 43-120).
`process` models `GeminiHybridProcessor.process_all` (its `Except.error`
a raised exception, caught by the outer handler at line 116), `dbConnect`
the result of `db.connect()`, and `dbOps` the database insertions.  The
function returns a value on every path: the outer `try/except` converts
any stage exception into the `False` return. -/
def run_complete_pipeline (now : String) (raw : List Article)
    (process : List Article → Except String Unit)
    (dbConnect : Bool) (dbOps : Except String Unit) : RunResult :=
  if raw.isEmpty then ⟨false, false, false⟩
  else
    let cleaned := clean_all now raw
    if cleaned.isEmpty then ⟨false, false, false⟩
    else
      match process cleaned with
      | .error _ => ⟨false, true, false⟩
      | .ok _ =>
        if !dbConnect then ⟨false, true, true⟩
        else
          match dbOps with
          | .error _ => ⟨false, true, true⟩
          | .ok _ => ⟨true, true, true⟩

/-! # Lemmas and theorems -/

/-! ## Character-level facts -/

theorem charToNat_inj {c d : Char} (h : c.toNat = d.toNat) : c = d :=
  Char.ext (UInt32.ext h)

theorem char_eq_iff_toNat {c d : Char} : c = d ↔ c.toNat = d.toNat :=
  ⟨fun h => h ▸ rfl, charToNat_inj⟩

theorem toNat_pyUpper (c : Char) :
    (pyUpper c).toNat =
      if 97 ≤ c.toNat ∧ c.toNat ≤ 122 then c.toNat - 32 else c.toNat := by
  unfold pyUpper
  split <;> rfl

theorem pyUpper_pyUpper (c : Char) : pyUpper (pyUpper c) = pyUpper c := by
  apply charToNat_inj
  rw [toNat_pyUpper, toNat_pyUpper]
  split <;> (try split) <;> omega

theorem charCodes :
    (' ' : Char).toNat = 32 ∧ ('\t' : Char).toNat = 9 ∧
    ('\n' : Char).toNat = 10 ∧ ('\x0d' : Char).toNat = 13 ∧
    ('\x0b' : Char).toNat = 11 ∧ ('\x0c' : Char).toNat = 12 ∧
    ('.' : Char).toNat = 46 ∧ (',' : Char).toNat = 44 ∧
    ('!' : Char).toNat = 33 ∧ ('?' : Char).toNat = 63 ∧
    (';' : Char).toNat = 59 ∧ (':' : Char).toNat = 58 ∧
    ('\x27' : Char).toNat = 39 ∧ ('"' : Char).toNat = 34 ∧
    ('-' : Char).toNat = 45 ∧ ('_' : Char).toNat = 95 := by
  refine ⟨rfl, rfl, rfl, rfl, rfl, rfl, rfl, rfl, rfl, rfl, rfl, rfl,
    rfl, rfl, rfl, rfl⟩

theorem isSpaceChar_iff (c : Char) : isSpaceChar c = true ↔
    (c.toNat = 32 ∨ c.toNat = 9 ∨ c.toNat = 10 ∨ c.toNat = 13 ∨
     c.toNat = 11 ∨ c.toNat = 12) := by
  simp only [isSpaceChar, Bool.or_eq_true, decide_eq_true_eq,
    char_eq_iff_toNat, charCodes.1, charCodes.2.1, charCodes.2.2.1,
    charCodes.2.2.2.1, charCodes.2.2.2.2.1, charCodes.2.2.2.2.2.1]
  omega

theorem isTermPunct_iff (c : Char) : isTermPunct c = true ↔
    (c.toNat = 46 ∨ c.toNat = 44 ∨ c.toNat = 33 ∨ c.toNat = 63) := by
  simp only [isTermPunct, Bool.or_eq_true, decide_eq_true_eq,
    char_eq_iff_toNat, charCodes.2.2.2.2.2.2.1, charCodes.2.2.2.2.2.2.2.1,
    charCodes.2.2.2.2.2.2.2.2.1, charCodes.2.2.2.2.2.2.2.2.2.1]
  omega

theorem isWordChar_iff (c : Char) : isWordChar c = true ↔
    ((97 ≤ c.toNat ∧ c.toNat ≤ 122) ∨ (65 ≤ c.toNat ∧ c.toNat ≤ 90) ∨
     (48 ≤ c.toNat ∧ c.toNat ≤ 57) ∨ c.toNat = 95) := by
  simp only [isWordChar, Bool.or_eq_true, Bool.and_eq_true, decide_eq_true_eq,
    char_eq_iff_toNat, charCodes.2.2.2.2.2.2.2.2.2.2.2.2.2.2.2]
  omega

theorem isAllowedChar_iff (c : Char) : isAllowedChar c = true ↔
    ((97 ≤ c.toNat ∧ c.toNat ≤ 122) ∨ (65 ≤ c.toNat ∧ c.toNat ≤ 90) ∨
     (48 ≤ c.toNat ∧ c.toNat ≤ 57) ∨ c.toNat = 95 ∨
     (c.toNat = 32 ∨ c.toNat = 9 ∨ c.toNat = 10 ∨ c.toNat = 13 ∨
      c.toNat = 11 ∨ c.toNat = 12) ∨
     c.toNat = 46 ∨ c.toNat = 44 ∨ c.toNat = 33 ∨ c.toNat = 63 ∨
     c.toNat = 59 ∨ c.toNat = 58 ∨ c.toNat = 39 ∨ c.toNat = 34 ∨
     c.toNat = 45) := by
  simp only [isAllowedChar, Bool.or_eq_true, decide_eq_true_eq,
    char_eq_iff_toNat, isWordChar_iff, isSpaceChar_iff,
    charCodes.2.2.2.2.2.2.1, charCodes.2.2.2.2.2.2.2.1,
    charCodes.2.2.2.2.2.2.2.2.1, charCodes.2.2.2.2.2.2.2.2.2.1,
    charCodes.2.2.2.2.2.2.2.2.2.2.1, charCodes.2.2.2.2.2.2.2.2.2.2.2.1,
    charCodes.2.2.2.2.2.2.2.2.2.2.2.2.1,
    charCodes.2.2.2.2.2.2.2.2.2.2.2.2.2.1,
    charCodes.2.2.2.2.2.2.2.2.2.2.2.2.2.2.1]
  omega

theorem isSpaceChar_pyUpper (c : Char) :
    isSpaceChar (pyUpper c) = isSpaceChar c := by
  rw [Bool.eq_iff_iff, isSpaceChar_iff, isSpaceChar_iff, toNat_pyUpper]
  split <;> omega

theorem isTermPunct_pyUpper (c : Char) :
    isTermPunct (pyUpper c) = isTermPunct c := by
  rw [Bool.eq_iff_iff, isTermPunct_iff, isTermPunct_iff, toNat_pyUpper]
  split <;> omega

theorem isAllowedChar_pyUpper (c : Char) (h : isAllowedChar c = true) :
    isAllowedChar (pyUpper c) = true := by
  rw [isAllowedChar_iff] at h ⊢
  rw [toNat_pyUpper]
  split <;> omega

theorem isTermPunct_not_space {c : Char} (h : isTermPunct c = true) :
    isSpaceChar c = false := by
  rw [isTermPunct_iff] at h
  rw [← Bool.not_eq_true, isSpaceChar_iff]
  omega

theorem pyUpper_space : pyUpper ' ' = ' ' := by decide

theorem isAllowedChar_space : isAllowedChar ' ' = true := by decide

/-! ## Normal forms of `_clean_text` output -/

/-- Every character is on the allow-list. -/
def AllOK (l : List Char) : Prop := ∀ c ∈ l, isAllowedChar c = true

/-- Every whitespace character is a plain space. -/
def WSCanon (l : List Char) : Prop :=
  ∀ c ∈ l, isSpaceChar c = true → c = ' '

/-- No two adjacent whitespace characters. -/
def NoWW (l : List Char) : Prop :=
  List.Chain' (fun a b => ¬(isSpaceChar a = true ∧ isSpaceChar b = true)) l

/-- No two adjacent terminal-punctuation characters. -/
def NoPP (l : List Char) : Prop :=
  List.Chain' (fun a b => ¬(isTermPunct a = true ∧ isTermPunct b = true)) l

/-- No whitespace at either end. -/
def NoEdgeWS (l : List Char) : Prop :=
  (∀ c ∈ l.head?, isSpaceChar c = false) ∧
  (∀ c ∈ l.getLast?, isSpaceChar c = false)

/-- The first character is a fixed point of the capitalisation. -/
def CapFixed (l : List Char) : Prop := ∀ c ∈ l.head?, pyUpper c = c

/-! ### collapseWS -/

theorem bool_not_true {b : Bool} (h : ¬b = true) : b = false := by
  cases b
  · rfl
  · exact absurd rfl h

theorem collapseWS_cons_nonspace {c : Char} (l : List Char)
    (h : ¬isSpaceChar c = true) : collapseWS (c :: l) = c :: collapseWS l := by
  cases l <;> simp [collapseWS, h]

theorem collapseWS_cons_sp_sp {c d : Char} (rest : List Char)
    (hc : isSpaceChar c = true) (hd : isSpaceChar d = true) :
    collapseWS (c :: d :: rest) = collapseWS (d :: rest) := by
  simp [collapseWS, hc, hd]

theorem collapseWS_cons_sp_non {c d : Char} (rest : List Char)
    (hc : isSpaceChar c = true) (hd : ¬isSpaceChar d = true) :
    collapseWS (c :: d :: rest) = ' ' :: collapseWS (d :: rest) := by
  simp [collapseWS, hc, hd]

theorem mem_collapseWS {c : Char} :
    ∀ {l : List Char}, c ∈ collapseWS l →
      (c ∈ l ∧ isSpaceChar c = false) ∨ c = ' '
  | [], h => by simp [collapseWS] at h
  | [d], h => by
    by_cases hd : isSpaceChar d = true
    · simp only [collapseWS, hd, if_true, List.mem_singleton] at h
      exact Or.inr h
    · simp only [collapseWS, bool_not_true hd, Bool.false_eq_true, if_false,
        List.mem_singleton] at h
      subst h
      exact Or.inl ⟨List.mem_singleton_self c, bool_not_true hd⟩
  | d :: e :: rest, h => by
    by_cases hd : isSpaceChar d = true
    · by_cases he : isSpaceChar e = true
      · rw [collapseWS_cons_sp_sp rest hd he] at h
        rcases mem_collapseWS h with ⟨hm, hs⟩ | hsp
        · exact Or.inl ⟨List.mem_cons_of_mem d hm, hs⟩
        · exact Or.inr hsp
      · rw [collapseWS_cons_sp_non rest hd he] at h
        rcases List.mem_cons.mp h with h | h
        · exact Or.inr h
        · rcases mem_collapseWS h with ⟨hm, hs⟩ | hsp
          · exact Or.inl ⟨List.mem_cons_of_mem d hm, hs⟩
          · exact Or.inr hsp
    · rw [collapseWS_cons_nonspace _ hd] at h
      rcases List.mem_cons.mp h with h | h
      · subst h; exact Or.inl ⟨List.mem_cons_self c _, bool_not_true hd⟩
      · rcases mem_collapseWS h with ⟨hm, hs⟩ | hsp
        · exact Or.inl ⟨List.mem_cons_of_mem d hm, hs⟩
        · exact Or.inr hsp

theorem wsCanon_collapseWS (l : List Char) : WSCanon (collapseWS l) := by
  intro c hc _
  rcases mem_collapseWS hc with ⟨_, hs⟩ | hsp
  · simp_all
  · exact hsp

theorem allOK_collapseWS {l : List Char} (h : AllOK l) :
    AllOK (collapseWS l) := by
  intro c hc
  rcases mem_collapseWS hc with ⟨hm, _⟩ | hsp
  · exact h c hm
  · subst hsp; exact isAllowedChar_space

theorem collapseWS_head (d : Char) :
    ∀ rest : List Char, (collapseWS (d :: rest)).head? =
      some (if isSpaceChar d then ' ' else d)
  | [] => by
    by_cases hd : isSpaceChar d = true <;> simp [collapseWS, hd]
  | e :: rest => by
    by_cases hd : isSpaceChar d = true
    · by_cases he : isSpaceChar e = true
      · rw [collapseWS_cons_sp_sp rest hd he, collapseWS_head e rest]
        simp [hd, he]
      · rw [collapseWS_cons_sp_non rest hd he]
        simp [hd]
    · rw [collapseWS_cons_nonspace _ hd]
      simp [hd]

theorem noWW_collapseWS : ∀ l : List Char, NoWW (collapseWS l)
  | [] => List.chain'_nil
  | [c] => by
    by_cases h : isSpaceChar c = true <;> simp [NoWW, collapseWS, h]
  | c :: d :: rest => by
    by_cases hc : isSpaceChar c = true
    · by_cases hd : isSpaceChar d = true
      · rw [NoWW, collapseWS_cons_sp_sp rest hc hd]
        exact noWW_collapseWS (d :: rest)
      · rw [NoWW, collapseWS_cons_sp_non rest hc hd, List.chain'_cons']
        refine ⟨?_, noWW_collapseWS (d :: rest)⟩
        intro y hy
        rw [collapseWS_head d rest] at hy
        simp only [Option.mem_def, Option.some_inj] at hy
        subst hy
        simp [hd, bool_not_true hd]
    · rw [NoWW, collapseWS_cons_nonspace _ hc, List.chain'_cons']
      refine ⟨?_, noWW_collapseWS (d :: rest)⟩
      intro y _
      simp [hc]

theorem collapseWS_eq_self :
    ∀ {l : List Char}, WSCanon l → NoWW l → collapseWS l = l
  | [], _, _ => rfl
  | [c], hcanon, _ => by
    by_cases h : isSpaceChar c = true
    · have := hcanon c (List.mem_singleton_self c) h
      simp [collapseWS, h, this]
    · simp [collapseWS, h]
  | c :: d :: rest, hcanon, hww => by
    rw [NoWW, List.chain'_cons] at hww
    by_cases hc : isSpaceChar c = true
    · have hd : ¬isSpaceChar d = true := fun h => hww.1 ⟨hc, h⟩
      have hc' : c = ' ' := hcanon c (List.mem_cons_self c _) hc
      rw [collapseWS_cons_sp_non rest hc hd,
        collapseWS_eq_self (fun x hx => hcanon x (List.mem_cons_of_mem c hx))
          hww.2, hc']
    · rw [collapseWS_cons_nonspace _ hc,
        collapseWS_eq_self (fun x hx => hcanon x (List.mem_cons_of_mem c hx))
          hww.2]

/-! ### collapsePunct -/

theorem collapsePunct_cons_pp {c d : Char} (rest : List Char)
    (hc : isTermPunct c = true) (hd : isTermPunct d = true) :
    collapsePunct (c :: d :: rest) = collapsePunct (d :: rest) := by
  simp [collapsePunct, hc, hd]

theorem collapsePunct_cons_var {c d : Char} (rest : List Char)
    (h : ¬(isTermPunct c = true ∧ isTermPunct d = true)) :
    collapsePunct (c :: d :: rest) = c :: collapsePunct (d :: rest) := by
  by_cases hc : isTermPunct c = true
  · by_cases hd : isTermPunct d = true
    · exact absurd ⟨hc, hd⟩ h
    · simp [collapsePunct, hc, bool_not_true hd]
  · simp [collapsePunct, bool_not_true hc]

theorem collapsePunct_sub : ∀ l : List Char, (collapsePunct l).Sublist l
  | [] => List.Sublist.refl []
  | [c] => List.Sublist.refl [c]
  | c :: d :: rest => by
    by_cases h : isTermPunct c = true ∧ isTermPunct d = true
    · rw [collapsePunct_cons_pp rest h.1 h.2]
      exact (collapsePunct_sub (d :: rest)).cons c
    · rw [collapsePunct_cons_var rest h]
      exact (collapsePunct_sub (d :: rest)).cons₂ c

theorem collapsePunct_head : ∀ (d : Char) (rest : List Char),
    (collapsePunct (d :: rest)).head? = some d ∨
    (isTermPunct d = true ∧
      ∃ e, (collapsePunct (d :: rest)).head? = some e ∧ isTermPunct e = true)
  | _, [] => Or.inl rfl
  | d, e :: rest => by
    by_cases h : isTermPunct d = true ∧ isTermPunct e = true
    · rw [collapsePunct_cons_pp rest h.1 h.2]
      rcases collapsePunct_head e rest with he | ⟨_, f, hf, hfp⟩
      · exact Or.inr ⟨h.1, e, he, h.2⟩
      · exact Or.inr ⟨h.1, f, hf, hfp⟩
    · rw [collapsePunct_cons_var rest h]
      exact Or.inl rfl

theorem noPP_collapsePunct : ∀ l : List Char, NoPP (collapsePunct l)
  | [] => List.chain'_nil
  | [c] => List.chain'_singleton c
  | c :: d :: rest => by
    by_cases h : isTermPunct c = true ∧ isTermPunct d = true
    · rw [NoPP, collapsePunct_cons_pp rest h.1 h.2]
      exact noPP_collapsePunct (d :: rest)
    · rw [NoPP, collapsePunct_cons_var rest h, List.chain'_cons']
      refine ⟨?_, noPP_collapsePunct (d :: rest)⟩
      intro y hy
      rcases collapsePunct_head d rest with hh | ⟨hdp, f, hf, hfp⟩
      · rw [hh] at hy
        simp only [Option.mem_def, Option.some_inj] at hy
        subst hy
        exact h
      · rw [hf] at hy
        simp only [Option.mem_def, Option.some_inj] at hy
        subst hy
        exact fun hcf => h ⟨hcf.1, hdp⟩

theorem noWW_collapsePunct :
    ∀ {l : List Char}, NoWW l → NoWW (collapsePunct l)
  | [], _ => List.chain'_nil
  | [c], _ => List.chain'_singleton c
  | c :: d :: rest, hww => by
    rw [NoWW, List.chain'_cons] at hww
    by_cases h : isTermPunct c = true ∧ isTermPunct d = true
    · rw [NoWW, collapsePunct_cons_pp rest h.1 h.2]
      exact noWW_collapsePunct hww.2
    · rw [NoWW, collapsePunct_cons_var rest h, List.chain'_cons']
      refine ⟨?_, noWW_collapsePunct hww.2⟩
      intro y hy
      rcases collapsePunct_head d rest with hh | ⟨_, f, hf, hfp⟩
      · rw [hh] at hy
        simp only [Option.mem_def, Option.some_inj] at hy
        subst hy
        exact hww.1
      · rw [hf] at hy
        simp only [Option.mem_def, Option.some_inj] at hy
        subst hy
        intro hcy
        rw [isTermPunct_not_space hfp] at hcy
        exact Bool.false_ne_true hcy.2

theorem collapsePunct_eq_self :
    ∀ {l : List Char}, NoPP l → collapsePunct l = l
  | [], _ => rfl
  | [_], _ => rfl
  | c :: d :: rest, hpp => by
    rw [NoPP, List.chain'_cons] at hpp
    rw [collapsePunct_cons_var rest hpp.1, collapsePunct_eq_self hpp.2]

/-! ### stripWS -/

theorem chain_of_middle {α : Type} {R : α → α → Prop} {l₁ l₂ : List α}
    (h : l₁ <:+: l₂) (hc : List.Chain' R l₂) : List.Chain' R l₁ := by
  obtain ⟨s, t, rfl⟩ := h
  rw [List.append_assoc] at hc
  exact (hc.right_of_append).left_of_append

theorem head_dropWhile {α : Type} (p : α → Bool) :
    ∀ (l : List α) {c : α}, (l.dropWhile p).head? = some c → p c = false
  | [], _, h => by simp [List.dropWhile] at h
  | a :: l, c, h => by
    by_cases ha : p a = true
    · rw [List.dropWhile_cons_of_pos ha] at h
      exact head_dropWhile p l h
    · rw [List.dropWhile_cons_of_neg ha] at h
      simp only [List.head?_cons, Option.some_inj] at h
      subst h
      exact bool_not_true ha

theorem dropTrailingWS_pre (l : List Char) : dropTrailingWS l <+: l := by
  obtain ⟨t, ht⟩ := List.dropWhile_suffix (l := l.reverse) isSpaceChar
  refine ⟨t.reverse, ?_⟩
  rw [dropTrailingWS, ← List.reverse_append, ht, List.reverse_reverse]

theorem stripWS_middle (l : List Char) : stripWS l <:+: l :=
  List.IsInfix.trans
    (List.IsPrefix.isInfix (dropTrailingWS_pre (l.dropWhile isSpaceChar)))
    (List.IsSuffix.isInfix (List.dropWhile_suffix isSpaceChar))

theorem head_of_pre {α : Type} {x y : List α} (h : x <+: y) {c : α}
    (hc : x.head? = some c) : y.head? = some c := by
  obtain ⟨t, rfl⟩ := h
  cases x
  · simp at hc
  · simpa using hc

theorem noEdgeWS_stripWS (l : List Char) : NoEdgeWS (stripWS l) := by
  constructor
  · intro c hc
    simp only [Option.mem_def] at hc
    exact head_dropWhile isSpaceChar l
      (head_of_pre (dropTrailingWS_pre (l.dropWhile isSpaceChar)) hc)
  · intro c hc
    simp only [Option.mem_def] at hc
    rw [stripWS, dropTrailingWS, List.getLast?_reverse] at hc
    exact head_dropWhile isSpaceChar _ hc

/-! ### capFirst -/

theorem capFirst_nil : capFirst [] = [] := rfl

theorem allOK_capFirst {l : List Char} (h : AllOK l) : AllOK (capFirst l) := by
  cases l with
  | nil => exact h
  | cons c t =>
    intro x hx
    rcases List.mem_cons.mp hx with hx | hx
    · subst hx
      exact isAllowedChar_pyUpper c (h c (List.mem_cons_self c t))
    · exact h x (List.mem_cons_of_mem c hx)

theorem wsCanon_capFirst {l : List Char} (h : WSCanon l) :
    WSCanon (capFirst l) := by
  cases l with
  | nil => exact h
  | cons c t =>
    intro x hx hs
    rcases List.mem_cons.mp hx with hx | hx
    · subst hx
      rw [isSpaceChar_pyUpper] at hs
      rw [h c (List.mem_cons_self c t) hs, pyUpper_space]
    · exact h x (List.mem_cons_of_mem c hx) hs

theorem noWW_capFirst {l : List Char} (h : NoWW l) : NoWW (capFirst l) := by
  cases l with
  | nil => exact h
  | cons c t =>
    rw [show capFirst (c :: t) = pyUpper c :: t from rfl]
    rw [NoWW, List.chain'_cons'] at h ⊢
    refine ⟨?_, h.2⟩
    intro y hy
    have := h.1 y hy
    rw [isSpaceChar_pyUpper]
    exact this

theorem noPP_capFirst {l : List Char} (h : NoPP l) : NoPP (capFirst l) := by
  cases l with
  | nil => exact h
  | cons c t =>
    rw [show capFirst (c :: t) = pyUpper c :: t from rfl]
    rw [NoPP, List.chain'_cons'] at h ⊢
    refine ⟨?_, h.2⟩
    intro y hy
    have := h.1 y hy
    rw [isTermPunct_pyUpper]
    exact this

theorem noEdgeWS_capFirst {l : List Char} (h : NoEdgeWS l) :
    NoEdgeWS (capFirst l) := by
  cases l with
  | nil => exact h
  | cons c t =>
    constructor
    · intro x hx
      simp only [capFirst, List.head?_cons, Option.mem_def,
        Option.some_inj] at hx
      subst hx
      rw [isSpaceChar_pyUpper]
      exact h.1 c (by simp)
    · intro x hx
      cases t with
      | nil =>
        simp only [capFirst, List.getLast?_singleton, Option.mem_def,
          Option.some_inj] at hx
        subst hx
        rw [isSpaceChar_pyUpper]
        exact h.2 c (by simp)
      | cons d t' =>
        rw [show capFirst (c :: d :: t') = pyUpper c :: d :: t' from rfl,
          List.getLast?_cons_cons] at hx
        exact h.2 x (by rw [List.getLast?_cons_cons]; exact hx)

theorem capFixed_capFirst (l : List Char) : CapFixed (capFirst l) := by
  cases l with
  | nil => intro c hc; simp [capFirst] at hc
  | cons c t =>
    intro x hx
    simp only [capFirst, List.head?_cons, Option.mem_def, Option.some_inj] at hx
    subst hx
    exact pyUpper_pyUpper c

theorem capFirst_eq_self {l : List Char} (h : CapFixed l) : capFirst l = l := by
  cases l with
  | nil => rfl
  | cons c t =>
    rw [show capFirst (c :: t) = pyUpper c :: t from rfl,
      h c (by simp)]

/-! ### Transport along subsets -/

theorem allOK_of_subset {l₁ l₂ : List Char} (h : l₁ ⊆ l₂) (hA : AllOK l₂) :
    AllOK l₁ := fun c hc => hA c (h hc)

theorem wsCanon_of_subset {l₁ l₂ : List Char} (h : l₁ ⊆ l₂)
    (hA : WSCanon l₂) : WSCanon l₁ := fun c hc hs => hA c (h hc) hs

/-! ### Normal form of the cleaning pass -/

theorem allOK_cleanChars (l : List Char) : AllOK (cleanChars l) := by
  apply allOK_capFirst
  apply allOK_of_subset (List.IsInfix.subset (stripWS_middle _))
  apply allOK_of_subset (List.Sublist.subset (collapsePunct_sub _))
  intro c hc
  exact (List.mem_filter.mp hc).2

theorem normalised_cleanChars {m : List Char} (hA : AllOK m) :
    WSCanon (cleanChars m) ∧ NoWW (cleanChars m) ∧ NoPP (cleanChars m) ∧
    NoEdgeWS (cleanChars m) ∧ CapFixed (cleanChars m) := by
  have hw : AllOK (collapseWS m) := allOK_collapseWS hA
  have hfilter : (collapseWS m).filter isAllowedChar = collapseWS m :=
    List.filter_eq_self.mpr hw
  rw [cleanChars, hfilter]
  have hcanon : WSCanon (collapsePunct (collapseWS m)) :=
    wsCanon_of_subset (List.Sublist.subset (collapsePunct_sub _))
      (wsCanon_collapseWS m)
  have hww : NoWW (collapsePunct (collapseWS m)) :=
    noWW_collapsePunct (noWW_collapseWS m)
  have hpp : NoPP (collapsePunct (collapseWS m)) :=
    noPP_collapsePunct (collapseWS m)
  have hmid := stripWS_middle (collapsePunct (collapseWS m))
  refine ⟨wsCanon_capFirst (wsCanon_of_subset (List.IsInfix.subset hmid) hcanon),
    noWW_capFirst (chain_of_middle hmid hww),
    noPP_capFirst (chain_of_middle hmid hpp),
    noEdgeWS_capFirst (noEdgeWS_stripWS _),
    capFixed_capFirst _⟩

theorem cleanChars_eq_self {l : List Char} (hA : AllOK l) (h1 : WSCanon l)
    (h2 : NoWW l) (h3 : NoPP l) (h4 : NoEdgeWS l) (h5 : CapFixed l) :
    cleanChars l = l := by
  rw [cleanChars, collapseWS_eq_self h1 h2, List.filter_eq_self.mpr hA,
    collapsePunct_eq_self h3]
  have hstrip : stripWS l = l := by
    rw [stripWS]
    have h6 : l.dropWhile isSpaceChar = l := by
      cases l with
      | nil => rfl
      | cons c t =>
        exact List.dropWhile_cons_of_neg (by
          rw [h4.1 c (by simp)]
          exact Bool.false_ne_true)
    rw [h6, dropTrailingWS]
    have h7 : l.reverse.dropWhile isSpaceChar = l.reverse := by
      cases hr : l.reverse with
      | nil => rfl
      | cons c t =>
        refine List.dropWhile_cons_of_neg ?_
        have : l.reverse.head? = some c := by rw [hr]; rfl
        rw [List.head?_reverse] at this
        rw [h4.2 c this]
        exact Bool.false_ne_true
    rw [h7, List.reverse_reverse]
  rw [hstrip, capFirst_eq_self h5]

theorem cleanChars_stable (l : List Char) :
    cleanChars (cleanChars (cleanChars l)) = cleanChars (cleanChars l) := by
  have hA : AllOK (cleanChars l) := allOK_cleanChars l
  obtain ⟨h1, h2, h3, h4, h5⟩ := normalised_cleanChars hA
  exact cleanChars_eq_self (allOK_cleanChars (cleanChars l)) h1 h2 h3 h4 h5

/-! ## Claim C9 -/

/-- C9 (counterexample): `_clean_text` is not idempotent.  On `"a $ b"` the
disallowed `$` is removed after whitespace collapsing, which leaves a double
space that only a second application collapses: the first pass yields
`"A  b"`, the second `"A b"`. -/
theorem C9_counterexample :
    clean_text (clean_text "a $ b") ≠ clean_text "a $ b" := by decide

/-- C9 (amended): text normalisation (`DataCleaner._clean_text`) is not
idempotent in general, because stripping a disallowed character can merge
two whitespace gaps into a double space that only the next application
collapses; it stabilises after two applications: applying `_clean_text` to
twice-normalised text yields the same text. -/
theorem C9_clean_text_stable (s : String) :
    clean_text (clean_text (clean_text s)) = clean_text (clean_text s) :=
  congrArg String.mk (cleanChars_stable s.toList)

/-! ## Claim C6 -/

/-- C6: if one source's strategy fails (on construction or on first
contact), `DataExtractor.extract_all` records zero articles for that source
and continues: the batch equals exactly what the remaining sources produce
without the failing one. -/
theorem C6_source_failure_isolated (pre post : List SourceRun) (r : SourceRun)
    (e : String) (h : r.result = .error e) :
    extract_all (pre ++ r :: post) = extract_all (pre ++ post) := by
  induction pre with
  | nil =>
    show extract_all (r :: post) = extract_all post
    rw [extract_all, h]
    cases hk : knownType r.type <;> simp
  | cons p pre ih =>
    show extract_all (p :: (pre ++ r :: post)) = extract_all (p :: (pre ++ post))
    rw [extract_all, extract_all, ih]

/-- C6 (witness): a concrete three-source batch whose middle source raises. -/
theorem C6_witness :
    extract_all
      [⟨"rss", .ok [mkTextArticle (some "A good story") none none]⟩,
       ⟨"scraper", .error "connection refused"⟩,
       ⟨"firecrawl", .ok [mkTextArticle (some "Another story") none none]⟩] =
    extract_all
      [⟨"rss", .ok [mkTextArticle (some "A good story") none none]⟩,
       ⟨"firecrawl", .ok [mkTextArticle (some "Another story") none none]⟩] :=
  C6_source_failure_isolated
    [⟨"rss", .ok [mkTextArticle (some "A good story") none none]⟩]
    [⟨"firecrawl", .ok [mkTextArticle (some "Another story") none none]⟩]
    ⟨"scraper", .error "connection refused"⟩ "connection refused" rfl

/-! ## Claim C7 -/

/-- C7: a per-item fetch of the Crawl-API strategy that raises a rate-limit
error is retried exactly once — its contribution is exactly what the single
retry attempt yields — and when the retry also fails the item is omitted
while every sibling item's contribution is untouched. -/
theorem C7_rate_limit_retry (pre post : List LinkRun) (l : LinkRun)
    (m : String) (h1 : l.first = .err m) (h2 : rateLimited m = true) :
    processLink l = attemptArticles l.retry ∧
    (∀ m2, l.retry = .err m2 →
      firecrawlLoop (pre ++ l :: post) = firecrawlLoop pre ++ firecrawlLoop post) := by
  constructor
  · rw [processLink, h1]
    simp [h2]
  · intro m2 hr
    rw [firecrawlLoop, firecrawlLoop, firecrawlLoop, List.map_append,
      List.map_cons, List.flatten_append, List.flatten_cons]
    rw [processLink, h1]
    simp [h2, hr, attemptArticles]

/-- C7 (witness): a concrete link batch where the middle link is
rate-limited twice and both siblings survive. -/
theorem C7_witness :
    firecrawlLoop
      [⟨.ok (some (mkTextArticle (some "First") none none)), .ok none⟩,
       ⟨.err "Rate Limit exceeded", .err "Rate Limit exceeded"⟩,
       ⟨.ok (some (mkTextArticle (some "Third") none none)), .ok none⟩] =
    firecrawlLoop [⟨.ok (some (mkTextArticle (some "First") none none)), .ok none⟩] ++
    firecrawlLoop [⟨.ok (some (mkTextArticle (some "Third") none none)), .ok none⟩] :=
  (C7_rate_limit_retry
    [⟨.ok (some (mkTextArticle (some "First") none none)), .ok none⟩]
    [⟨.ok (some (mkTextArticle (some "Third") none none)), .ok none⟩]
    ⟨.err "Rate Limit exceeded", .err "Rate Limit exceeded"⟩
    "Rate Limit exceeded" rfl (by decide)).2 "Rate Limit exceeded" rfl

/-! ## Claim C8 -/

/-- C8: when extraction yields no articles, or cleaning leaves none, the
pipeline run returns an explicit failure before the simplifier or the
storage stage is reached, and (the function being total, the outer handler
converting stage exceptions into the `false` return) no exception escapes. -/
theorem C8_pipeline_fatal (now : String) (raw : List Article)
    (process : List Article → Except String Unit) (dbConnect : Bool)
    (dbOps : Except String Unit)
    (h : raw = [] ∨ clean_all now raw = []) :
    run_complete_pipeline now raw process dbConnect dbOps = ⟨false, false, false⟩ := by
  rcases h with h | h
  · subst h
    rfl
  · by_cases hr : raw.isEmpty = true
    · rw [List.isEmpty_iff.mp hr]
      rfl
    · unfold run_complete_pipeline
      simp [hr, h]

/-- C8 (witness): an extraction that produced nothing aborts the concrete
run with failure and no downstream stage invoked. -/
theorem C8_witness :
    run_complete_pipeline "t" [] (fun _ => Except.ok ()) true (Except.ok ()) =
      ⟨false, false, false⟩ :=
  C8_pipeline_fatal "t" [] (fun _ => Except.ok ()) true (Except.ok ())
    (Or.inl rfl)

/-! ## Claim C10 -/

theorem clean_article_defaultTextFields (a : Article) :
    clean_article (defaultTextFields a) = clean_article a := by
  cases a
  simp [clean_article, defaultTextFields]

/-- C10: every stage of `DataCleaner.clean_all` reads the text fields with
`dict.get(field, '')`, so a record with absent `title`, `description` or
`raw_content` is processed exactly as one holding the empty string, and the
pipeline returns normally (the embedding is a total function). -/
theorem C10_missing_fields_defaulted (now : String) (arts : List Article) :
    clean_all now (arts.map defaultTextFields) = clean_all now arts := by
  rw [clean_all, clean_all, List.map_map]
  have h : clean_article ∘ defaultTextFields = clean_article := by
    funext a
    exact clean_article_defaultTextFields a
  rw [h]

/-! ## Membership in the output of clean_all -/

theorem removeDupsAux_sub (seen : List String) :
    ∀ l : List Article, (removeDupsAux seen l).Sublist l
  | [] => List.Sublist.refl []
  | a :: rest => by
    rw [removeDupsAux]
    split
    · exact (removeDupsAux_sub (articleKey a :: seen) rest).cons₂ a
    · exact (removeDupsAux_sub seen rest).cons a

theorem is_sensitive_add_metadata (now : String) (b : Article) :
    is_sensitive (add_metadata now b) = is_sensitive b := rfl

/-- Every element of `clean_all`'s output stems from a cleaned input article
that passed the deduplication and the safety filter, and differs from it
only by the stamped metadata. -/
theorem mem_clean_all {now : String} {arts : List Article} {o : Article}
    (h : o ∈ clean_all now arts) :
    ∃ b, is_sensitive b = false ∧ (∃ a ∈ arts, b = clean_article a) ∧
      o = add_metadata now b := by
  rw [clean_all] at h
  obtain ⟨b, hb, rfl⟩ := List.mem_map.mp h
  obtain ⟨hbd, hbs⟩ := List.mem_filter.mp hb
  have hbm : b ∈ arts.map clean_article :=
    (removeDupsAux_sub [] (arts.map clean_article)).subset hbd
  obtain ⟨a, ha, rfl⟩ := List.mem_map.mp hbm
  refine ⟨clean_article a, ?_, ⟨a, ha, rfl⟩, rfl⟩
  cases hs : is_sensitive (clean_article a)
  · rfl
  · rw [hs] at hbs
    exact absurd hbs (by simp)

/-! ## Claim C1 -/

/-- C1: an article containing any sensitive keyword as a substring of the
lower-cased concatenation of its title, description and body is absent from
the output of `DataCleaner.clean_all`: every output record passes the
safety filter on exactly those fields, which such an article cannot. -/
theorem C1_sensitive_article_absent (now : String) (arts : List Article)
    (A : Article) (kw : String) (hA : A ∈ arts)
    (hkw : kw ∈ sensitive_keywords)
    (hsub : kw.toList <:+: (full_text_lower A).toList) :
    A ∉ clean_all now arts := by
  intro hout
  obtain ⟨b, hsafe, _, hAb⟩ := mem_clean_all hout
  have hsens : is_sensitive A = true := by
    rw [is_sensitive, List.any_eq_true]
    exact ⟨kw, hkw, decide_eq_true hsub⟩
  rw [hAb, is_sensitive_add_metadata, hsafe] at hsens
  exact Bool.false_ne_true hsens

/-- C1 (witness): a concrete article whose title contains "war" never
survives cleaning. -/
theorem C1_witness :
    mkTextArticle (some "War games tonight") none none ∉
      clean_all "t" [mkTextArticle (some "War games tonight") none none] :=
  C1_sensitive_article_absent "t"
    [mkTextArticle (some "War games tonight") none none]
    (mkTextArticle (some "War games tonight") none none) "war"
    (List.mem_singleton_self _) (by decide) (by decide)

/-! ## Claim C4 -/

/-- C4 (counterexample): an article whose description and body are both
empty survives the pipeline with an empty `raw_content` — the fallback to
the description has nothing to fall back to, and deduplication and the
safety filter key on the (non-empty, harmless) title. -/
theorem C4_counterexample :
    (clean_all "t" [mkTextArticle (some "Hello") (some "") (some "")]).map
      Article.raw_content = [some ""] := by decide

/-- C4 (amended): a surviving record's `raw_content` is non-empty unless
both its normalised body and its normalised description are empty: an
output record with empty `raw_content` has an empty `description`, and
whenever the body normalises to empty while the description does not,
`_clean_article` substitutes the normalised description. -/
theorem C4_raw_content_fallback (now : String) (arts : List Article)
    (o : Article) (ho : o ∈ clean_all now arts) :
    (o.raw_content = some "" → o.description = some "") ∧
    (∀ a : Article, clean_text (a.raw_content.getD "") = "" →
      clean_text (a.description.getD "") ≠ "" →
      (clean_article a).raw_content =
        some (clean_text (a.description.getD ""))) := by
  constructor
  · intro hraw
    obtain ⟨b, _, ⟨a, _, rfl⟩, rfl⟩ := mem_clean_all ho
    rw [show (add_metadata now (clean_article a)).raw_content =
          (clean_article a).raw_content from rfl] at hraw
    rw [show (add_metadata now (clean_article a)).description =
          (clean_article a).description from rfl]
    rw [clean_article] at hraw ⊢
    simp only [Option.some_inj] at hraw ⊢
    by_cases hc : clean_text (a.raw_content.getD "") = "" ∧
        clean_text (a.description.getD "") ≠ ""
    · rw [if_pos (by simp [hc.1, hc.2])] at hraw
      exact absurd hraw hc.2
    · rw [if_neg (by simpa using hc)] at hraw
      by_cases hd : clean_text (a.description.getD "") = ""
      · exact hd
      · exact absurd ⟨hraw, hd⟩ hc
  · intro a hr hd
    rw [clean_article]
    simp [hr, hd]

/-- C4 (witness): the amended statement at a concrete surviving record whose
body was empty and whose description carried the content. -/
theorem C4_witness :
    ((⟨none, some "Good morning", some "Nice day", none, none, none, none,
        some "Nice day", none, some "t", some 2, some true⟩ :
          Article).raw_content = some "" →
      (⟨none, some "Good morning", some "Nice day", none, none, none, none,
        some "Nice day", none, some "t", some 2, some true⟩ :
          Article).description = some "") ∧
    (∀ a : Article, clean_text (a.raw_content.getD "") = "" →
      clean_text (a.description.getD "") ≠ "" →
      (clean_article a).raw_content =
        some (clean_text (a.description.getD ""))) :=
  C4_raw_content_fallback "t"
    [mkTextArticle (some "Good morning") (some "Nice day") (some "")]
    ⟨none, some "Good morning", some "Nice day", none, none, none, none,
      some "Nice day", none, some "t", some 2, some true⟩
    (by decide)

/-! ## Claim C2 -/

theorem mem_removeDupsAux {a : Article} :
    ∀ {seen : List String} {l : List Article}, a ∈ removeDupsAux seen l →
      articleKey a ≠ "" ∧ articleKey a ∉ seen
  | _, [], h => by simp [removeDupsAux] at h
  | seen, b :: rest, h => by
    rw [removeDupsAux] at h
    split at h
    · rcases List.mem_cons.mp h with rfl | h
      · assumption
      · have := mem_removeDupsAux h
        exact ⟨this.1, fun hm => this.2 (List.mem_cons_of_mem _ hm)⟩
    · exact mem_removeDupsAux h

theorem nodup_keys_removeDupsAux :
    ∀ (seen : List String) (l : List Article),
      ((removeDupsAux seen l).map articleKey).Nodup
  | _, [] => List.nodup_nil
  | seen, b :: rest => by
    rw [removeDupsAux]
    split
    · rw [List.map_cons, List.nodup_cons]
      refine ⟨?_, nodup_keys_removeDupsAux _ rest⟩
      intro hmem
      obtain ⟨c, hc, hkey⟩ := List.mem_map.mp hmem
      exact (mem_removeDupsAux hc).2 (hkey ▸ List.mem_cons_self _ _)
    · exact nodup_keys_removeDupsAux seen rest

theorem first_mem_removeDupsAux {a : Article} :
    ∀ (seen : List String) (pre post : List Article),
      articleKey a ≠ "" → articleKey a ∉ seen →
      (∀ b ∈ pre, articleKey b ≠ articleKey a) →
      a ∈ removeDupsAux seen (pre ++ a :: post)
  | seen, [], post, hk, hs, _ => by
    rw [List.nil_append, removeDupsAux, if_pos ⟨hk, hs⟩]
    exact List.mem_cons_self a _
  | seen, b :: pre, post, hk, hs, hpre => by
    rw [List.cons_append, removeDupsAux]
    split
    · refine List.mem_cons_of_mem b
        (first_mem_removeDupsAux _ pre post hk ?_
          (fun c hc => hpre c (List.mem_cons_of_mem b hc)))
      intro hm
      rcases List.mem_cons.mp hm with he | hm
      · exact hpre b (List.mem_cons_self b pre) he.symm
      · exact hs hm
    · exact first_mem_removeDupsAux _ pre post hk hs
        (fun c hc => hpre c (List.mem_cons_of_mem b hc))

/-- C2: the deduplication stage keys each article on its lower-cased,
punctuation-stripped title; the output is a subsequence of the input
(order preserved), every survivor has a non-empty key, no two survivors
share a key, the first article of the input carrying a given non-empty key
survives, and of the two articles titled "Flood hits city" and
"flood hits city!!" only the first in input order survives. -/
theorem C2_dedup_first_per_key (arts : List Article) :
    (remove_duplicates arts).Sublist arts ∧
    (∀ a ∈ remove_duplicates arts, articleKey a ≠ "") ∧
    ((remove_duplicates arts).map articleKey).Nodup ∧
    (∀ pre a post, arts = pre ++ a :: post → articleKey a ≠ "" →
      (∀ b ∈ pre, articleKey b ≠ articleKey a) →
      a ∈ remove_duplicates arts) ∧
    remove_duplicates
        [mkTextArticle (some "Flood hits city") none none,
         mkTextArticle (some "flood hits city!!") none none] =
      [mkTextArticle (some "Flood hits city") none none] := by
  refine ⟨removeDupsAux_sub [] arts,
    fun a ha => (mem_removeDupsAux ha).1,
    nodup_keys_removeDupsAux [] arts, ?_, by decide⟩
  intro pre a post hsplit hk hpre
  rw [remove_duplicates, hsplit]
  exact first_mem_removeDupsAux [] pre post hk (List.not_mem_nil _) hpre

/-! ## Claim C3 -/

/-- A well-formed word list: every word non-empty and whitespace-free
(exactly what Python's `split()` produces). -/
def GoodWords (ws : List (List Char)) : Prop :=
  ∀ w ∈ ws, w ≠ [] ∧ ∀ c ∈ w, isSpaceChar c = false

theorem pySplitAux_goodWords :
    ∀ (l acc : List Char), (∀ c ∈ acc, isSpaceChar c = false) →
      GoodWords (pySplitAux l acc)
  | [], acc, hacc => by
    rw [pySplitAux]
    split
    · exact fun w hw => absurd hw (List.not_mem_nil w)
    · intro w hw
      rw [List.mem_singleton] at hw
      subst hw
      constructor
      · simpa using fun h => by simp_all [List.isEmpty_iff]
      · intro c hc
        exact hacc c (List.mem_reverse.mp hc)
  | c :: cs, acc, hacc => by
    rw [pySplitAux]
    by_cases hc : isSpaceChar c = true
    · rw [if_pos hc]
      split
      · exact pySplitAux_goodWords cs [] (fun x hx => absurd hx (List.not_mem_nil x))
      · intro w hw
        rcases List.mem_cons.mp hw with rfl | hw
        · refine ⟨?_, fun x hx => hacc x (List.mem_reverse.mp hx)⟩
          simpa using fun h => by simp_all [List.isEmpty_iff]
        · exact pySplitAux_goodWords cs []
            (fun x hx => absurd hx (List.not_mem_nil x)) w hw
    · rw [if_neg hc]
      refine pySplitAux_goodWords cs (c :: acc) ?_
      intro x hx
      rcases List.mem_cons.mp hx with rfl | hx
      · exact bool_not_true hc
      · exact hacc x hx

theorem goodWords_pySplit (l : List Char) : GoodWords (pySplit l) :=
  pySplitAux_goodWords l [] (fun x hx => absurd hx (List.not_mem_nil x))

theorem pySplitAux_word (w : List Char) (hw : ∀ c ∈ w, isSpaceChar c = false) :
    ∀ (rest acc : List Char),
      pySplitAux (w ++ rest) acc = pySplitAux rest (w.reverse ++ acc) := by
  induction w with
  | nil => intro rest acc; rfl
  | cons c w ih =>
    intro rest acc
    rw [List.cons_append, pySplitAux,
      if_neg (by simp [hw c (List.mem_cons_self c w)]),
      ih (fun x hx => hw x (List.mem_cons_of_mem c hx)) rest (c :: acc),
      List.reverse_cons, List.append_assoc, List.singleton_append]

theorem pySplit_joinSpace :
    ∀ ws : List (List Char), GoodWords ws → pySplit (joinSpace ws) = ws
  | [], _ => rfl
  | [w], h => by
    have hw := h w (List.mem_singleton_self w)
    rw [joinSpace, pySplit, show w = w ++ [] from (List.append_nil w).symm,
      pySplitAux_word w hw.2 [] []]
    rw [pySplitAux]
    rw [List.append_nil, if_neg (by simp [hw.1]), List.reverse_reverse]
    simp at *
  | w :: w' :: ws, h => by
    have hw := h w (List.mem_cons_self w _)
    rw [show joinSpace (w :: w' :: ws) = w ++ ' ' :: joinSpace (w' :: ws)
        from rfl,
      pySplit, pySplitAux_word w hw.2, pySplitAux,
      if_pos (show isSpaceChar ' ' = true by decide)]
    rw [List.append_nil, if_neg (by simp [hw.1]), List.reverse_reverse]
    rw [show pySplitAux (joinSpace (w' :: ws)) [] = pySplit (joinSpace (w' :: ws))
        from rfl,
      pySplit_joinSpace (w' :: ws) (fun x hx => h x (List.mem_cons_of_mem w hx))]

theorem pySplit_joinSpace_append (suffix : List Char)
    (hs1 : suffix ≠ []) (hs2 : ∀ c ∈ suffix, isSpaceChar c = false) :
    ∀ ws : List (List Char), ws ≠ [] → GoodWords ws →
      (pySplit (joinSpace ws ++ suffix)).length = ws.length
  | [], hne, _ => absurd rfl hne
  | [w], _, h => by
    have hw := h w (List.mem_singleton_self w)
    rw [joinSpace, pySplit,
      show w ++ suffix = (w ++ suffix) ++ [] by rw [List.append_nil],
      pySplitAux_word (w ++ suffix)
        (fun c hc => by
          rcases List.mem_append.mp hc with hc | hc
          · exact hw.2 c hc
          · exact hs2 c hc) [] []]
    rw [pySplitAux, List.append_nil,
      if_neg (by simp [hs1]), List.length_singleton, List.length_singleton]
  | w :: w' :: ws, _, h => by
    have hw := h w (List.mem_cons_self w _)
    rw [show joinSpace (w :: w' :: ws) = w ++ ' ' :: joinSpace (w' :: ws)
        from rfl,
      List.append_assoc, pySplit, pySplitAux_word w hw.2, List.cons_append,
      pySplitAux, if_pos (show isSpaceChar ' ' = true by decide)]
    rw [List.append_nil, if_neg (by simp [hw.1]), List.length_cons]
    rw [show pySplitAux (joinSpace (w' :: ws) ++ suffix) [] =
        pySplit (joinSpace (w' :: ws) ++ suffix) from rfl,
      pySplit_joinSpace_append suffix hs1 hs2 (w' :: ws) (by simp)
        (fun x hx => h x (List.mem_cons_of_mem w hx)),
      List.length_cons]
    simp

theorem joinSpace_ne_nil :
    ∀ ws : List (List Char), ws ≠ [] → GoodWords ws → joinSpace ws ≠ []
  | [], hne, _ => absurd rfl hne
  | [w], _, h => by
    rw [joinSpace]
    exact (h w (List.mem_singleton_self w)).1
  | w :: w' :: ws, _, h => by
    rw [show joinSpace (w :: w' :: ws) = w ++ ' ' :: joinSpace (w' :: ws)
        from rfl]
    simp

set_option maxRecDepth 4000 in
/-- C3 (counterexample): a 51-word text whose 50th word ends in a full stop
is truncated for `max_words = 50` without the ellipsis marker the claim
promises: the code skips the ellipsis when the truncated text already ends
in `.`, `!` or `?`. -/
theorem C3_counterexample :
    (pySplitStr (String.intercalate " "
        (List.replicate 49 "a" ++ ["end.", "x"]))).length = 51 ∧
    (truncate_for_age_group
        (String.intercalate " " (List.replicate 49 "a" ++ ["end.", "x"]))
        ⟨"6-8 years", 50, 3, "very_simple"⟩).map (fun r => r.text) =
      some (String.intercalate " " (List.replicate 49 "a" ++ ["end."])) ∧
    (truncate_for_age_group
        (String.intercalate " " (List.replicate 49 "a" ++ ["end.", "x"]))
        ⟨"6-8 years", 50, 3, "very_simple"⟩).map
        (fun r => decide (['.', '.', '.'] <:+ r.text.toList)) =
      some false := by
  refine ⟨by decide, by decide, by decide⟩

theorem truncate_eq_of_getLast (text : String) (g : AgeGroup)
    (hnotle : ¬(pySplit text.toList).length ≤ g.max_words) (c : Char)
    (hc : (joinSpace ((pySplit text.toList).take g.max_words)).getLast? =
      some c) :
    truncate_for_age_group text g =
      some (truncStats
        (if c = '.' ∨ c = '!' ∨ c = '?' then
          String.mk (joinSpace ((pySplit text.toList).take g.max_words))
        else
          String.mk (joinSpace ((pySplit text.toList).take g.max_words)) ++
            "...") g) := by
  simp only [truncate_for_age_group]
  rw [if_neg hnotle, hc]

/-- C3 (amended): for a profile with positive `max_words`, a text of at most
`max_words` words is returned unmodified (no ellipsis); a longer text is
truncated to at most `max_words` words, and the result either carries the
appended `...` marker or already ends in terminal punctuation (`.`, `!`,
`?`), in which case the code deliberately adds no ellipsis. -/
theorem C3_truncate_for_age_group (text : String) (g : AgeGroup)
    (hpos : 0 < g.max_words) :
    ((pySplitStr text).length ≤ g.max_words →
      truncate_for_age_group text g = some (truncStats text g)) ∧
    ((pySplitStr text).length > g.max_words →
      ∃ r, truncate_for_age_group text g = some r ∧
        (pySplitStr r.text).length ≤ g.max_words ∧
        (['.', '.', '.'] <:+ r.text.toList ∨
          ∃ c, r.text.toList.getLast? = some c ∧
            (c = '.' ∨ c = '!' ∨ c = '?'))) := by
  have hlen : (pySplitStr text).length = (pySplit text.toList).length :=
    List.length_map _ _
  constructor
  · intro hle
    rw [hlen] at hle
    simp only [truncate_for_age_group]
    rw [if_pos hle]
  · intro hgt
    rw [hlen] at hgt
    have hnotle : ¬(pySplit text.toList).length ≤ g.max_words := by omega
    have hgood : GoodWords ((pySplit text.toList).take g.max_words) :=
      fun w hw => goodWords_pySplit text.toList w (List.mem_of_mem_take hw)
    have htne : (pySplit text.toList).take g.max_words ≠ [] := by
      intro hnil
      have := congrArg List.length hnil
      rw [List.length_take] at this
      simp only [List.length_nil] at this
      omega
    have hjoin : joinSpace ((pySplit text.toList).take g.max_words) ≠ [] :=
      joinSpace_ne_nil _ htne hgood
    obtain ⟨c, hc⟩ : ∃ c,
        (joinSpace ((pySplit text.toList).take g.max_words)).getLast? =
          some c := by
      rcases hlast : (joinSpace ((pySplit text.toList).take g.max_words)).getLast?
        with _ | c
      · exact absurd (List.getLast?_eq_none_iff.mp hlast) hjoin
      · exact ⟨c, rfl⟩
    have htakelen :
        ((pySplit text.toList).take g.max_words).length = g.max_words := by
      rw [List.length_take]
      omega
    rw [truncate_eq_of_getLast text g hnotle c hc]
    by_cases hpunct : c = '.' ∨ c = '!' ∨ c = '?'
    · rw [if_pos hpunct]
      refine ⟨_, rfl, ?_, Or.inr ⟨c, hc, hpunct⟩⟩
      rw [show (truncStats
          (String.mk (joinSpace ((pySplit text.toList).take g.max_words))) g).text =
          String.mk (joinSpace ((pySplit text.toList).take g.max_words)) from rfl]
      rw [pySplitStr, List.length_map,
        show (String.mk (joinSpace ((pySplit text.toList).take g.max_words))).toList
          = joinSpace ((pySplit text.toList).take g.max_words) from rfl,
        pySplit_joinSpace _ hgood, htakelen]
    · rw [if_neg hpunct]
      refine ⟨_, rfl, ?_, Or.inl ?_⟩
      · rw [show (truncStats
            (String.mk (joinSpace ((pySplit text.toList).take g.max_words)) ++ "...")
            g).text =
            String.mk (joinSpace ((pySplit text.toList).take g.max_words)) ++ "..."
            from rfl]
        rw [pySplitStr, List.length_map,
          show (String.mk (joinSpace ((pySplit text.toList).take g.max_words)) ++
              ("..." : String)).toList =
            joinSpace ((pySplit text.toList).take g.max_words) ++
              ['.', '.', '.'] from rfl,
          pySplit_joinSpace_append ['.', '.', '.'] (by simp) (by decide) _
            htne hgood, htakelen]
      · rw [show (truncStats
            (String.mk (joinSpace ((pySplit text.toList).take g.max_words)) ++ "...")
            g).text =
            String.mk (joinSpace ((pySplit text.toList).take g.max_words)) ++ "..."
            from rfl,
          show (String.mk (joinSpace ((pySplit text.toList).take g.max_words)) ++
              ("..." : String)).toList =
            joinSpace ((pySplit text.toList).take g.max_words) ++
              ['.', '.', '.'] from rfl]
        exact List.suffix_append _ _

/-- C3 (witness): the amended statement at a 40-word text and the real
50-word profile (returned unchanged), exercising the no-truncation branch. -/
theorem C3_witness :
    truncate_for_age_group
        (String.intercalate " " (List.replicate 40 "word"))
        ⟨"6-8 years", 50, 3, "very_simple"⟩ =
      some (truncStats (String.intercalate " " (List.replicate 40 "word"))
        ⟨"6-8 years", 50, 3, "very_simple"⟩) :=
  (C3_truncate_for_age_group
    (String.intercalate " " (List.replicate 40 "word"))
    ⟨"6-8 years", 50, 3, "very_simple"⟩ (by decide)).1 (by decide)

/-! ## Claim C5 -/

set_option maxRecDepth 8000 in
/-- C5 (counterexample): the NDTV scraper (`WebScraper._scrape_ndtv`) copies
the listing-page description into `raw_content` without any cap: a
2001-character description yields a record whose `raw_content` has 2001
characters.  (The RSS summary fallback at extractors.py 61 is likewise
uncapped; only secondary-fetch content and the Firecrawl parse are.) -/
theorem C5_counterexample :
    (ndtvParseItem "A long enough headline" "https://www.ndtv.com/x"
        (String.mk (List.replicate 2001 'a')) "NDTV" "national" "t").map
      (fun a => (a.raw_content.getD "").length) = some 2001 := by
  rw [ndtvParseItem,
    if_pos (⟨by decide, by decide⟩ :
      ("A long enough headline" : String) ≠ "" ∧
      ("A long enough headline" : String).length > 10)]
  simp only [Option.map_some', Option.getD_some]
  rw [show (String.mk (List.replicate 2001 'a')).length =
      (List.replicate 2001 'a').length from rfl, List.length_replicate]

/-- C5 (amended): the 2000-character budget bounds `raw_content` where the
code applies the slice: the RSS secondary fetch (`_fetch_full_article`)
returns at most 2000 characters on every path, and every article the
Firecrawl strategy's `_parse_article` emits has `raw_content` of at most
2000 characters; the scraper paths that reuse a listing description
(`_scrape_ndtv` and friends) and the RSS feed-summary fallback are not
capped. -/
theorem C5_raw_content_capped :
    (∀ found, (fetch_full_article found).length ≤ 2000) ∧
    (∀ md mt mdsc pm url src cat now a,
      firecrawl_parse_article md mt mdsc pm url src cat now = some a →
      (a.raw_content.getD "").length ≤ 2000) := by
  constructor
  · intro found
    cases found with
    | none => exact Nat.zero_le 2000
    | some content =>
      rw [show (fetch_full_article (some content)).length =
          (content.toList.take 2000).length from rfl, List.length_take]
      omega
  · intro md mt mdsc pm url src cat now a h
    have hrc : (firecrawlRawContent md).length ≤ 2000 := by
      rw [firecrawlRawContent]
      split
      · rw [show (pyTake (firecrawlCleanContent md) 2000).length =
            ((firecrawlCleanContent md).toList.take 2000).length from rfl,
          List.length_take]
        omega
      · omega
    rw [firecrawl_parse_article] at h
    split at h
    · exact absurd h (by simp)
    · rw [Option.some_inj] at h
      subst h
      simpa using hrc

end ChildNews
